import Mathlib

/-!
# disk-usage-mac: size aggregation, listing, rendering and navigation

A shallow embedding of `disk-usage-mac.go`.

* The file system is a finite tree (`FsNode`).  The Go standard library calls
  the program makes (`os.ReadDir`, `filepath.Walk`, `sort.Slice`,
  `strconv.Atoi`, `path.Join`, `filepath.Join`, `filepath.Dir`) are modelled
  after their documented behaviour; the path functions are a parameter
  (`PathLib`) with the instance `goPaths` for a system whose separator is the
  slash.
* `int64` arithmetic is `Int` arithmetic followed by `wrap64`.
* Go strings that are cut or measured in bytes, and the rows printed, are lists
  of bytes (`utf8`).
* The floating-point results used by `formatBytes10` are a parameter
  (`FloatLib`); the exponent and the index expression `units[exp-1]` are part
  of the model (`scaledBranch`).
* Goroutines and the result channel of `listDirContents` are modelled by the
  sequence in which the `FsItemSize` messages are received (`arrivals`).
-/

namespace DiskUsage

/-! ## Data model -/

/-- The record `FsItem` of the program. -/
structure FsItem where
  isDir : Bool
  name : String
  fullPath : String
  parentPath : String
  sizeBytes : Int
  n : Int
  deriving DecidableEq

/-- The message `FsItemSize` sent by `calcDirSize`. -/
structure FsItemSize where
  path : String
  size : Int
  deriving DecidableEq

/-- The library path functions the program calls. -/
structure PathLib where
  /-- `filepath.Join(a, b)` -/
  filepathJoin : String → String → String
  /-- `path.Join(a, b)` -/
  pathJoin : String → String → String
  /-- `filepath.Dir(p)` -/
  filepathDir : String → String

/-- Reduction of an integer to the range of `int64` (two's complement). -/
def wrap64 (x : Int) : Int :=
  (x + 9223372036854775808) % 18446744073709551616 - 9223372036854775808

/-! ## File-system model -/

/-- A node of the file tree as the program observes it.

* `file size`: `Lstat` succeeds, `IsDir()` is false, `Size()` is `size`
  (regular files, symbolic links, devices, ...);
* `dir size children`: a directory whose entries can be read; `size` is the
  `Size()` of the directory itself, `children` are its entries in the order
  `os.ReadDir` and `filepath.Walk` visit them (sorted by name);
* `lockedDir size`: a directory whose entries cannot be read;
* `broken isDir`: an entry that `os.ReadDir` reports (with type directory iff
  `isDir`) but whose metadata cannot be read (`Lstat`/`Info` fails). -/
inductive FsNode where
  | file (size : Int)
  | dir (size : Int) (children : List (String × FsNode))
  | lockedDir (size : Int)
  | broken (isDir : Bool)

/-- What `DirEntry.IsDir()` reports for a node. -/
def FsNode.isDirEntry : FsNode → Bool
  | .file _ => false
  | .dir _ _ => true
  | .lockedDir _ => true
  | .broken d => d

/-- The `os.FileInfo` handed to a walk callback. -/
structure FileInfo where
  isDir : Bool
  size : Int

/-! ## `filepath.Walk` and `calcDirSize` -/

/-- The callback closure of `calcDirSize` (lines 187-195).  The captured
variable `sum` is threaded as state; the Boolean is `true` when the callback
returns a non-nil error. -/
def walkFn (sum : Int) (info : Option FileInfo) (err : Bool) : Int × Bool :=
  if err then (sum, true)
  else
    match info with
    | some i => if !i.isDir then (wrap64 (sum + i.size), false) else (sum, false)
    | none => (sum, false)

mutual
/-- The recursion of `filepath.Walk` on one node: the callback is called on the
node, a readable directory is then descended into in entry order, and the first
non-nil error returned by the callback ends the whole walk. -/
def walk (fn : Int → Option FileInfo → Bool → Int × Bool) : FsNode → Int → Int × Bool
  | .file size, s => fn s (some ⟨false, size⟩) false
  | .dir size children, s =>
    let r := fn s (some ⟨true, size⟩) false
    if r.2 then (r.1, true) else walkList fn children r.1
  | .lockedDir size, s => fn s (some ⟨true, size⟩) true
  | .broken _, s => fn s none true
/-- The loop of `filepath.Walk` over the entries of a directory. -/
def walkList (fn : Int → Option FileInfo → Bool → Int × Bool) :
    List (String × FsNode) → Int → Int × Bool
  | [], s => (s, false)
  | c :: rest, s =>
    let r := walk fn c.2 s
    if r.2 then (r.1, true) else walkList fn rest r.1
end

/-- The function `calcDirSize` on the subtree found at `path`: the message it
sends on the channel.  A walk error is only logged. -/
def calcDirSize (path : String) (node : FsNode) : FsItemSize :=
  { path := path, size := (walk walkFn node 0).1 }

/-- True when `calcDirSize` logs `Walk error!` for the subtree. -/
def walkFailed (node : FsNode) : Bool := (walk walkFn node 0).2

/-! ## `listDirContents` -/

/-- The result of `Lstat` (or `DirEntry.Info`) on a node; `none` is an error. -/
def FsNode.info : FsNode → Option FileInfo
  | .file size => some ⟨false, size⟩
  | .dir size _ => some ⟨true, size⟩
  | .lockedDir size => some ⟨true, size⟩
  | .broken _ => none

/-- The ways `listDirContents` can fail to return a list: the error returned
when `os.ReadDir` fails, or a run-time panic. -/
inductive Fault where
  | readError
  | panic
  deriving DecidableEq

/-- The entries `os.ReadDir(path)` returns for the node found at `path`; `none`
is a non-nil error (the node is not a directory, or cannot be read). -/
def readDir : FsNode → Option (List (String × FsNode))
  | .dir _ children => some children
  | _ => none

/-- The built-in `make([]FsItem, 0, cap)` with a capacity computed at run time:
a negative capacity panics (`makeslice: cap out of range`). -/
def makeSlice (cap : Int) : Option (List FsItem) :=
  if cap < 0 then none else some []

/-- The body of the first loop of `listDirContents` (lines 130-147): the
`FsItem` built for one directory entry. -/
def newItem (lib : PathLib) (path : String) (dirItem : String × FsNode) : FsItem :=
  let fi : FsItem :=
    { parentPath := path
      fullPath := lib.filepathJoin path dirItem.1
      name := dirItem.1
      sizeBytes := 0
      isDir := dirItem.2.isDirEntry
      n := 0 }
  if !dirItem.2.isDirEntry then
    match dirItem.2.info with
    | none => { fi with sizeBytes := -1 }
    | some fileInfo => { fi with sizeBytes := fileInfo.size }
  else fi

/-- The messages sent by the goroutines started in the second loop of
`listDirContents` (lines 155-160), one `calcDirSize` per entry with `isDir`,
listed in the order the goroutines are started. -/
def spawned (lib : PathLib) (path : String) (dirItems : List (String × FsNode)) :
    List FsItemSize :=
  dirItems.filterMap fun dirItem =>
    if (newItem lib path dirItem).isDir then
      some (calcDirSize (newItem lib path dirItem).fullPath dirItem.2)
    else none

/-- The effect of one message on one element of `results` (lines 169-171). -/
def applySize (r : FsItem) (sizeRes : FsItemSize) : FsItem :=
  if r.fullPath = sizeRes.path ∧ r.isDir = true then { r with sizeBytes := sizeRes.size }
  else r

/-- One iteration of the merge loop (lines 168-172). -/
def mergeSize (results : List FsItem) (sizeRes : FsItemSize) : List FsItem :=
  results.map fun r => applySize r sizeRes

/-- The merge loop `for sizeRes := range sizesChan` (lines 167-173) over the
messages in the order they are received. -/
def mergeSizes (results : List FsItem) (arrivals : List FsItemSize) : List FsItem :=
  arrivals.foldl mergeSize results

/-- The closure `sorter` (lines 175-177), on the elements compared. -/
def sorter (a b : FsItem) : Bool := decide (a.sizeBytes > b.sizeBytes)

/-- The inner loop of the library's insertion sort
(`for j := i; j > a && less(j, j-1); j-- { swap(j, j-1) }`): the element `x` at
the right end of the sorted part moves left past every element it is `less`
than and stops at the first one it is not.  The sorted part is given and
returned from its right end (last element first). -/
def sortInsert (less : FsItem → FsItem → Bool) (x : FsItem) : List FsItem → List FsItem
  | [] => [x]
  | y :: ys => if less x y then y :: sortInsert less x ys else x :: y :: ys

/-- The library call `sort.Slice(results, less)`.  For a slice of at most 12
elements the library runs the insertion sort modelled here, which takes the
elements from left to right and leaves elements that compare equal in their
order; a longer slice is sorted by pattern-defeating quicksort, which orders by
the same `less` but may place equal elements differently. -/
def sortSlice (less : FsItem → FsItem → Bool) (results : List FsItem) : List FsItem :=
  (results.foldl (fun sortedPart x => sortInsert less x sortedPart) []).reverse

/-- The function `listDirContents(path)`, where `node` is what the file system
holds at `path` and `arrivals` is the sequence of messages received from the
channel `sizesChan`. -/
def listDirContents (lib : PathLib) (path : String) (node : FsNode)
    (arrivals : List FsItemSize) : Except Fault (List FsItem) :=
  match readDir node with
  | none => .error .readError
  | some dirItems =>
    match makeSlice ((dirItems.length : Int) - 1) with
    | none => .error .panic
    | some results0 =>
      let results := results0 ++ dirItems.map (newItem lib path)
      .ok (sortSlice sorter (mergeSizes results arrivals))

/-! ## Rendering: `draw` and the column formatters -/

/-- Left padding with spaces up to `width` columns, as `%<width>d` and
`strings.Repeat(" ", padding)` do for an ASCII string. -/
def padLeft (width : Nat) (s : String) : String :=
  String.mk (List.replicate (width - s.length) ' ') ++ s

/-- The function `formatItemNumber5`. -/
def formatItemNumber5 (num : Int) : String :=
  let ns := toString num
  let padding : Int := 5 - (ns.length : Int)
  if padding ≤ 0 then ns else String.mk (List.replicate padding.toNat ' ') ++ ns

/-- The bytes of a Go string: its UTF-8 encoding. -/
def utf8 (s : String) : List UInt8 := s.data.flatMap String.utf8EncodeChar

/-- The function `formatFsItemName64` on the bytes of the name: `len(name)`
counts bytes and `name[:(width-3)]` is a slice of bytes, which may end inside
a character.  The padding byte 32 is the space. -/
def formatFsItemName64 (name : List UInt8) : List UInt8 :=
  let width := 64
  let name1 := if name.length > width then name.take (width - 3) ++ utf8 "..." else name
  if name1.length = width then name1
  else name1 ++ List.replicate (width - name1.length) 32

/-- The floating-point results `formatBytes10` obtains from the library for a
size and an exponent. -/
structure FloatLib where
  /-- `int64(math.Log(float64(bytes)) / math.Log(1024))` -/
  logQuotient : Int → Int
  /-- `fmt.Sprintf("%10.2f", math.Round(float64(bytes)/math.Pow(1024, float64(exp))*100) / 100)` -/
  fixed2 : Int → Int → String

/-- The slice `units` of `formatBytes10`. -/
def units : List String := ["KB", "MB", "GB", "TB", "PB"]

/-- Lines 275-278 of `formatBytes10`, the branch for `bytes >= 1024`: the
exponent, the rounded quotient and the unit `units[exp-1]`.  `none` is the
run-time panic of an index out of range. -/
def scaledBranch (fl : FloatLib) (bytes : Int) : Option String :=
  let exp := fl.logQuotient bytes
  let rounded := fl.fixed2 bytes exp
  if exp - 1 < 0 then none
  else
    match units[(exp - 1).toNat]? with
    | none => none
    | some unit => some (rounded ++ " " ++ unit)

/-- The function `formatBytes10`.  The branch for `bytes >= 1024` (lines
275-278) is passed as `scaled`; for the program it is `scaledBranch fl`, with
`fl` the floating-point results of the library.  `none` is a run-time panic. -/
def formatBytes10 (scaled : Int → Option String) (bytes : Int) : Option String :=
  if bytes < 1024 then some (padLeft 10 (toString bytes) ++ " B")
  else scaled bytes

/-- The loop of `draw` (lines 248-265) with the counter `num`: the items with
their field `n` updated, and the rows printed (as bytes), one per item that is
not skipped.  `none` is a panic inside `formatBytes10`. -/
def drawLoop (scaled : Int → Option String) :
    List FsItem → Int → Option (List FsItem × List (List UInt8))
  | [], _ => some ([], [])
  | item :: rest, num =>
    if item.sizeBytes < 1 then
      (drawLoop scaled rest num).map fun r => (item :: r.1, r.2)
    else if item.isDir then
      let item1 := { item with n := num }
      let numSec := formatItemNumber5 item1.n
      let nameSec := formatFsItemName64 (utf8 ("[" ++ item1.name ++ "]"))
      match formatBytes10 scaled item1.sizeBytes with
      | none => none
      | some sizeSec =>
        (drawLoop scaled rest (num + 1)).map fun r =>
          (item1 :: r.1,
            (utf8 (numSec ++ " " ++ "+" ++ " ") ++ nameSec ++ utf8 (sizeSec ++ "\n")) :: r.2)
    else
      let numSec := String.mk (List.replicate 5 ' ')
      let nameSec := formatFsItemName64 (utf8 item.name)
      match formatBytes10 scaled item.sizeBytes with
      | none => none
      | some sizeSec =>
        (drawLoop scaled rest num).map fun r =>
          (item :: r.1,
            (utf8 (numSec ++ " " ++ "-" ++ " ") ++ nameSec ++ utf8 (sizeSec ++ "\n")) :: r.2)

/-- The row that `draw` prints for an item it does not skip, computed from the
item as it is after the call (with its `n`). -/
def rowOf (scaled : Int → Option String) (item : FsItem) : Option (List UInt8) :=
  (formatBytes10 scaled item.sizeBytes).map fun sizeSec =>
    if item.isDir then
      utf8 (formatItemNumber5 item.n ++ " " ++ "+" ++ " ") ++
        formatFsItemName64 (utf8 ("[" ++ item.name ++ "]")) ++ utf8 (sizeSec ++ "\n")
    else
      utf8 (String.mk (List.replicate 5 ' ') ++ " " ++ "-" ++ " ") ++
        formatFsItemName64 (utf8 item.name) ++ utf8 (sizeSec ++ "\n")

/-- The function `draw`: the listing after the call (it is updated in place
through the pointer) and the entry rows printed between the banner and the
prompt. -/
def draw (scaled : Int → Option String) (items : List FsItem) :
    Option (List FsItem × List (List UInt8)) :=
  drawLoop scaled items 1

/-! ## Navigation: one turn of `mainLoop` -/

/-- The value of a run of decimal digits, `none` if some character is not a
digit. -/
def parseDigits : List Char → Nat → Option Nat
  | [], acc => some acc
  | c :: cs, acc =>
    if '0' ≤ c ∧ c ≤ '9' then parseDigits cs (acc * 10 + (c.toNat - '0'.toNat)) else none

/-- The library call `strconv.Atoi` for a 64-bit `int`: an optional sign, at
least one digit, only digits, and a value in the range of `int`; `none` is a
non-nil error. -/
def atoi (s : String) : Option Int :=
  let body (neg : Bool) (ds : List Char) : Option Int :=
    if ds = [] then none
    else
      match parseDigits ds 0 with
      | none => none
      | some v =>
        if neg then (if v ≤ 9223372036854775808 then some (-(v : Int)) else none)
        else (if v ≤ 9223372036854775807 then some (v : Int) else none)
  match s.data with
  | [] => none
  | '-' :: ds => body true ds
  | '+' :: ds => body false ds
  | ds => body false ds

/-- Where a turn of `mainLoop` leaves the loop: it returns, or it goes round
again with a current path. -/
inductive Next where
  | exit
  | browse (currentPath : String)
  deriving DecidableEq

/-- The variable `rootPath` of `mainLoop`. -/
def rootPath : String := "/"

/-- The `switch command` of `mainLoop` (lines 87-116).  `dirItems` is the
listing after `draw`.  The calls to `openInFinder` do not touch the path. -/
def handleCommand (lib : PathLib) (currentPath : String) (dirItems : List FsItem)
    (command : String) : Next :=
  if command ∈ ["q", "\\q", "quit", "exit", "bye", "bye!"] then .exit
  else if command ∈ ["open", "finder"] then .browse currentPath
  else if command = "reveal" then .browse currentPath
  else if command = "." then .browse currentPath
  else if command = ".." then
    if currentPath = rootPath then .browse currentPath
    else .browse (lib.filepathDir currentPath)
  else
    match atoi command with
    | none => .browse currentPath
    | some selectedNum =>
      match dirItems.find? (fun item => item.n == selectedNum) with
      | some item => .browse (lib.pathJoin currentPath item.name)
      | none => .browse currentPath

/-- The two event sources of the `select` statement. -/
inductive Event where
  | signal
  | input (command : String)

/-- The `select` statement of `mainLoop` (lines 82-117). -/
def selectEvent (lib : PathLib) (currentPath : String) (dirItems : List FsItem) :
    Event → Next
  | .signal => .exit
  | .input command => handleCommand lib currentPath dirItems command

/-- One turn of the `for` loop of `mainLoop` (lines 72-117) on the node found
at the current path: a failing `listDirContents` sends the loop to the root
path, otherwise the listing is drawn and one event is handled.  `none` is a
run-time panic, which ends the process. -/
def mainLoopTurn (lib : PathLib) (scaled : Int → Option String) (currentPath : String)
    (node : FsNode) (arrivals : List FsItemSize) (event : Event) : Option Next :=
  match listDirContents lib currentPath node arrivals with
  | .error .readError => some (.browse rootPath)
  | .error .panic => none
  | .ok dirItems =>
    match draw scaled dirItems with
    | none => none
    | some r => some (selectEvent lib currentPath r.1 event)

/-! ## A concrete instance of the path functions -/

/-- The components of a path between slashes. -/
def splitSlash : List Char → List (List Char)
  | [] => [[]]
  | c :: cs =>
    match splitSlash cs with
    | [] => [[c]]
    | w :: ws => if c = '/' then [] :: w :: ws else (c :: w) :: ws

/-- The components joined with slashes. -/
def joinSlash : List (List Char) → List Char
  | [] => []
  | [w] => w
  | w :: ws => w ++ '/' :: joinSlash ws

/-- The element stack of `path.Clean`: empty and `.` elements are dropped, a
`..` removes the element before it, is dropped at the root, and is kept at the
start of a relative path. -/
def cleanStack (rooted : Bool) : List (List Char) → List (List Char) → List (List Char)
  | [], st => st.reverse
  | w :: ws, st =>
    if w = [] ∨ w = ['.'] then cleanStack rooted ws st
    else if w = ['.', '.'] then
      match st with
      | [] => if rooted then cleanStack rooted ws [] else cleanStack rooted ws [w]
      | top :: below =>
        if top = ['.', '.'] then cleanStack rooted ws (w :: st)
        else cleanStack rooted ws below
    else cleanStack rooted ws (w :: st)

/-- The library function `path.Clean` (the same as `filepath.Clean` on a
system whose separator is the slash). -/
def cleanPath (p : List Char) : List Char :=
  match p with
  | [] => ['.']
  | c :: _ =>
    let body := joinSlash (cleanStack (c = '/') (splitSlash p) [])
    if c = '/' then '/' :: body
    else if body = [] then ['.'] else body

/-- The library functions `path.Join` and `filepath.Join` for two elements:
the non-empty elements joined by a slash and cleaned, or the empty string. -/
def joinPath (a b : String) : String :=
  if a = "" ∧ b = "" then ""
  else if a = "" then String.mk (cleanPath b.data)
  else if b = "" then String.mk (cleanPath a.data)
  else String.mk (cleanPath (a.data ++ '/' :: b.data))

/-- The prefix of a path up to and including its last slash. -/
def uptoLastSlash (p : List Char) : List Char :=
  (p.reverse.dropWhile (fun c => c ≠ '/')).reverse

/-- The library function `filepath.Dir`. -/
def dirPath (p : String) : String :=
  String.mk (cleanPath (uptoLastSlash p.data))

/-- The path functions of a system whose separator is the slash. -/
def goPaths : PathLib :=
  { filepathJoin := joinPath, pathJoin := joinPath, filepathDir := dirPath }

/-! ## What the specification says about subtree sizes -/

mutual
/-- The sum of the sizes of all non-directory files of a subtree: the files
directly inside plus the files of every descendant directory; directories and
unreadable paths contribute nothing. -/
def fileTotal : FsNode → Int
  | .file size => size
  | .dir _ children => fileTotalList children
  | .lockedDir _ => 0
  | .broken _ => 0
/-- The sum of `fileTotal` over the entries of a directory. -/
def fileTotalList : List (String × FsNode) → Int
  | [] => 0
  | c :: rest => fileTotal c.2 + fileTotalList rest
end

mutual
/-- The paths of a subtree in the order `filepath.Walk` visits them when it is
never stopped, each with what it adds to the sum: `some size` for a file,
`some 0` for a directory that can be read, `none` for a path that cannot be
read. -/
def visits : FsNode → List (Option Int)
  | .file size => [some size]
  | .dir _ children => some 0 :: visitsList children
  | .lockedDir _ => [none]
  | .broken _ => [none]
/-- The visits of the entries of a directory, in entry order. -/
def visitsList : List (String × FsNode) → List (Option Int)
  | [] => []
  | c :: rest => visits c.2 ++ visitsList rest
end

/-- True when no path of the subtree fails to be read. -/
def readable (node : FsNode) : Bool := (visits node).all Option.isSome

/-- The sum of what the visits add up to the first path that cannot be read. -/
def sumBeforeFailure : List (Option Int) → Int
  | [] => 0
  | none :: _ => 0
  | some x :: rest => x + sumBeforeFailure rest

/-! ## Concrete inputs -/

/-- A subdirectory `z` whose first entry `a` cannot be read and whose second
entry `b` is a file of 7 bytes. -/
def partlyUnreadable : FsNode := .dir 96 [("a", .broken false), ("b", .file 7)]

/-- The entries of a directory whose subdirectory `big` holds two files of
`2^62` bytes each. -/
def hugeEntries : List (String × FsNode) :=
  [("big", .dir 96 [("x", .file 4611686018427387904), ("y", .file 4611686018427387904)])]

/-- The entries of the directory `/tmp/a` of the specification's example: a
subdirectory `b` holding a file `g` of 50 bytes, and a file `f` of 100 bytes. -/
def exampleEntries : List (String × FsNode) :=
  [("b", .dir 96 [("g", .file 50)]), ("f", .file 100)]

/-- The directory `/tmp/a` of the specification's example. -/
def exampleTree : FsNode := .dir 128 exampleEntries

/-- The largest `e` with `1024^e ≤ bytes`, for sizes of type `int64`: what
the quotient of logarithms truncates to in exact real arithmetic. -/
def exactExponent (bytes : Int) : Int :=
  (((List.range 64).filter (fun e => decide ((1024 : Int) ^ (e + 1) ≤ bytes))).length : Int)

/-- The quotient `bytes / 1024^exp` rounded half away from zero to 2 decimal
places and printed as `%10.2f`, in exact arithmetic (for `bytes ≥ 0`). -/
def exactFixed2 (bytes exp : Int) : String :=
  let d : Int := 1024 ^ exp.toNat
  let cents : Int := (bytes * 200 + d) / (2 * d)
  let frac : Int := cents % 100
  padLeft 10 (toString (cents / 100) ++ "." ++ (if frac < 10 then "0" else "") ++ toString frac)

/-- The floating-point results in exact real arithmetic.  The library's
`float64` results agree with them wherever the quotient of logarithms is not
within rounding error of an integer. -/
def exactFloats : FloatLib :=
  { logQuotient := exactExponent, fixed2 := exactFixed2 }

/-- Whether a path element is a plain name: not empty, without a slash, and
neither `.` nor `..`. -/
def plainName (w : List Char) : Bool :=
  decide (w ≠ [] ∧ '/' ∉ w ∧ w ≠ ['.'] ∧ w ≠ ['.', '.'])

/-- The clean absolute path with the given elements: `/` for no element,
`/a/b` for the elements `a`, `b`. -/
def absPath (elements : List (List Char)) : String :=
  String.mk ('/' :: joinSlash elements)

/-- A floating-point branch of `formatBytes10` that always panics; the concrete
listings below hold no size of 1024 bytes or more, so it is never called. -/
def noScaled : Int → Option String := fun _ => none

/-- An empty directory that can be read. -/
def emptyDir : FsNode := .dir 64 []

/-- A directory `/tmp/a` whose only entry is a file `x` with unreadable
metadata. -/
def brokenFileDir : FsNode := .dir 96 [("x", .broken false)]

/-- The listing `listDirContents` returns for the specification's example. -/
def exampleListing : List FsItem :=
  [⟨false, "f", "/tmp/a/f", "/tmp/a", 100, 0⟩, ⟨true, "b", "/tmp/a/b", "/tmp/a", 50, 0⟩]

/-! # Theorems -/

/-! ## Sorting -/

theorem mem_sortInsert (less : FsItem → FsItem → Bool) (x a : FsItem) (l : List FsItem) :
    a ∈ sortInsert less x l ↔ a = x ∨ a ∈ l := by
  induction l with
  | nil => simp [sortInsert]
  | cons y ys ih =>
    unfold sortInsert
    split
    · simp only [List.mem_cons, ih]
      tauto
    · simp

theorem perm_sortInsert (less : FsItem → FsItem → Bool) (x : FsItem) (l : List FsItem) :
    (sortInsert less x l).Perm (x :: l) := by
  induction l with
  | nil => simp [sortInsert]
  | cons y ys ih =>
    unfold sortInsert
    split
    · exact (List.Perm.cons y ih).trans (List.Perm.swap x y ys)
    · exact List.Perm.refl _

theorem perm_foldl_sortInsert (less : FsItem → FsItem → Bool) (l : List FsItem) :
    ∀ sortedPart : List FsItem,
      (l.foldl (fun sortedPart x => sortInsert less x sortedPart) sortedPart).Perm
        (sortedPart ++ l) := by
  induction l with
  | nil => intro sortedPart; simp
  | cons x xs ih =>
    intro sortedPart
    simp only [List.foldl_cons]
    refine (ih (sortInsert less x sortedPart)).trans ?_
    refine (List.Perm.append_right xs (perm_sortInsert less x sortedPart)).trans ?_
    exact (List.perm_middle).symm

theorem perm_sortSlice (less : FsItem → FsItem → Bool) (l : List FsItem) :
    (sortSlice less l).Perm l := by
  unfold sortSlice
  refine (List.reverse_perm _).trans ?_
  simpa using perm_foldl_sortInsert less l []

theorem mem_sortSlice (less : FsItem → FsItem → Bool) (a : FsItem) (l : List FsItem) :
    a ∈ sortSlice less l ↔ a ∈ l :=
  (perm_sortSlice less l).mem_iff

theorem sorted_sortInsert (x : FsItem) (l : List FsItem)
    (h : l.Pairwise (fun a b => a.sizeBytes ≤ b.sizeBytes)) :
    (sortInsert sorter x l).Pairwise (fun a b => a.sizeBytes ≤ b.sizeBytes) := by
  induction l with
  | nil => simp [sortInsert]
  | cons y ys ih =>
    unfold sortInsert
    rw [List.pairwise_cons] at h
    split
    · rename_i hlt
      have hxy : y.sizeBytes < x.sizeBytes := by simpa [sorter] using hlt
      refine List.pairwise_cons.2 ⟨?_, ih h.2⟩
      intro b hb
      rcases (mem_sortInsert sorter x b ys).1 hb with rfl | hb
      · omega
      · exact h.1 b hb
    · rename_i hlt
      have hxy : x.sizeBytes ≤ y.sizeBytes := by simpa [sorter] using hlt
      refine List.pairwise_cons.2 ⟨?_, List.pairwise_cons.2 h⟩
      intro b hb
      rcases List.mem_cons.1 hb with rfl | hb
      · exact hxy
      · have := h.1 b hb
        omega

theorem sorted_foldl_sortInsert (l : List FsItem) :
    ∀ sortedPart : List FsItem,
      sortedPart.Pairwise (fun a b => a.sizeBytes ≤ b.sizeBytes) →
      (l.foldl (fun sortedPart x => sortInsert sorter x sortedPart) sortedPart).Pairwise
        (fun a b => a.sizeBytes ≤ b.sizeBytes) := by
  induction l with
  | nil => intro sortedPart h; simpa using h
  | cons x xs ih =>
    intro sortedPart h
    simp only [List.foldl_cons]
    exact ih _ (sorted_sortInsert x sortedPart h)

theorem sorted_sortSlice (l : List FsItem) :
    (sortSlice sorter l).Pairwise (fun a b => b.sizeBytes ≤ a.sizeBytes) := by
  unfold sortSlice
  rw [List.pairwise_reverse]
  exact sorted_foldl_sortInsert l [] List.Pairwise.nil

/-- Entries of equal size keep the order in which `os.ReadDir` returned them
(slices of at most 12 elements). -/
theorem sortSlice_keeps_ties :
    sortSlice sorter [⟨false, "a", "/a", "/", 5, 0⟩, ⟨false, "b", "/b", "/", 5, 0⟩,
        ⟨false, "c", "/c", "/", 9, 0⟩]
      = [⟨false, "c", "/c", "/", 9, 0⟩, ⟨false, "a", "/a", "/", 5, 0⟩,
        ⟨false, "b", "/b", "/", 5, 0⟩] := by
  rfl

/-- What `listDirContents` returns when it returns a list. -/
theorem listDirContents_ok (lib : PathLib) (path : String) (node : FsNode)
    (arrivals : List FsItemSize) (items : List FsItem)
    (h : listDirContents lib path node arrivals = .ok items) :
    ∃ size dirItems, node = .dir size dirItems ∧ dirItems ≠ [] ∧
      items = sortSlice sorter (mergeSizes (dirItems.map (newItem lib path)) arrivals) := by
  cases node with
  | dir size dirItems =>
    refine ⟨size, dirItems, rfl, ?_, ?_⟩
    · rintro rfl
      simp [listDirContents, readDir, makeSlice] at h
    · cases dirItems with
      | nil => simp [listDirContents, readDir, makeSlice] at h
      | cons c cs =>
        have hcap : ¬ ((((c :: cs).length : Nat) : Int) - 1 < 0) := by
          simp only [List.length_cons]; omega
        simp only [listDirContents, readDir, makeSlice, hcap, if_false, List.nil_append,
          Except.ok.injEq] at h
        exact h.symm
  | file size => simp [listDirContents, readDir] at h
  | lockedDir size => simp [listDirContents, readDir] at h
  | broken d => simp [listDirContents, readDir] at h

/-- C2: the list returned by `listDirContents` is ordered by `sizeBytes`
descending: at all adjacent positions `i`, `i+1` the size at `i` is at least the
size at `i+1`. -/
theorem listDirContents_sorted_desc (lib : PathLib) (path : String) (node : FsNode)
    (arrivals : List FsItemSize) (items : List FsItem)
    (h : listDirContents lib path node arrivals = .ok items) :
    ∀ (i : Nat) (hi : i + 1 < items.length),
      (items.get ⟨i + 1, hi⟩).sizeBytes ≤ (items.get ⟨i, Nat.lt_of_succ_lt hi⟩).sizeBytes := by
  obtain ⟨size, dirItems, -, -, rfl⟩ := listDirContents_ok lib path node arrivals items h
  intro i hi
  have hs := sorted_sortSlice (mergeSizes (dirItems.map (newItem lib path)) arrivals)
  exact List.pairwise_iff_get.1 hs ⟨i, Nat.lt_of_succ_lt hi⟩ ⟨i + 1, hi⟩ (Nat.lt_succ_self i)

/-- The specification's example for C2: in `/tmp/a` the file `f` (100 bytes) is
listed before the directory `b` (50 bytes), and the list is ordered. -/
theorem listDirContents_sorted_desc_witness :
    listDirContents goPaths "/tmp/a" exampleTree (spawned goPaths "/tmp/a" exampleEntries)
        = .ok [⟨false, "f", "/tmp/a/f", "/tmp/a", 100, 0⟩, ⟨true, "b", "/tmp/a/b", "/tmp/a", 50, 0⟩]
    ∧ ∀ (i : Nat) (hi : i + 1 < ([⟨false, "f", "/tmp/a/f", "/tmp/a", 100, 0⟩,
          ⟨true, "b", "/tmp/a/b", "/tmp/a", 50, 0⟩] : List FsItem).length),
        (([⟨false, "f", "/tmp/a/f", "/tmp/a", 100, 0⟩,
          ⟨true, "b", "/tmp/a/b", "/tmp/a", 50, 0⟩] : List FsItem).get ⟨i + 1, hi⟩).sizeBytes
        ≤ (([⟨false, "f", "/tmp/a/f", "/tmp/a", 100, 0⟩,
          ⟨true, "b", "/tmp/a/b", "/tmp/a", 50, 0⟩] : List FsItem).get
            ⟨i, Nat.lt_of_succ_lt hi⟩).sizeBytes :=
  ⟨by rfl, listDirContents_sorted_desc goPaths "/tmp/a" exampleTree
    (spawned goPaths "/tmp/a" exampleEntries) _ (by rfl)⟩

/-! ## The empty directory -/

/-- C8 (failing input): for a readable directory without children
`listDirContents` does not return a list: the capacity `len(dirItems)-1` is
`-1` and `make` panics. -/
theorem listDirContents_empty_panics (lib : PathLib) (path : String) (size : Int)
    (arrivals : List FsItemSize) :
    listDirContents lib path (.dir size []) arrivals = .error .panic := by
  rfl

/-! ## Rendering -/

/-- The items `draw` prints a row for. -/
theorem drawLoop_rows (scaled : Int → Option String) (items : List FsItem) :
    ∀ (num : Int) (items1 : List FsItem) (rows : List (List UInt8)),
      drawLoop scaled items num = some (items1, rows) →
      rows.map some = (items1.filter (fun e => decide (1 ≤ e.sizeBytes))).map (rowOf scaled) := by
  induction items with
  | nil =>
    intro num items1 rows h
    simp only [drawLoop, Option.some.injEq, Prod.mk.injEq] at h
    obtain ⟨rfl, rfl⟩ := h
    rfl
  | cons item rest ih =>
    intro num items1 rows h
    unfold drawLoop at h
    split at h
    · rename_i hlt
      cases hr : drawLoop scaled rest num with
      | none => simp [hr] at h
      | some r =>
        simp only [hr, Option.map_some', Option.some.injEq, Prod.mk.injEq] at h
        obtain ⟨rfl, rfl⟩ := h
        have hn : ¬ (1 ≤ item.sizeBytes) := by omega
        simpa [List.filter_cons, hn] using ih num r.1 r.2 hr
    · rename_i hge
      have hp : 1 ≤ item.sizeBytes := by omega
      split at h
      · rename_i hdir
        simp only at h
        cases hf : formatBytes10 scaled item.sizeBytes with
        | none => simp [hf] at h
        | some sizeSec =>
          cases hr : drawLoop scaled rest (num + 1) with
          | none => simp [hf, hr] at h
          | some r =>
            simp only [hf, hr, Option.map_some', Option.some.injEq, Prod.mk.injEq] at h
            obtain ⟨rfl, rfl⟩ := h
            have := ih (num + 1) r.1 r.2 hr
            simp [List.filter_cons, hp, rowOf, hf, hdir, this]
      · rename_i hdir
        simp only at h
        cases hf : formatBytes10 scaled item.sizeBytes with
        | none => simp [hf] at h
        | some sizeSec =>
          cases hr : drawLoop scaled rest num with
          | none => simp [hf, hr] at h
          | some r =>
            simp only [hf, hr, Option.map_some', Option.some.injEq, Prod.mk.injEq] at h
            obtain ⟨rfl, rfl⟩ := h
            have := ih num r.1 r.2 hr
            simp [List.filter_cons, hp, rowOf, hf, hdir, this]

/-- How `draw` changes the items: position by position, nothing but the field
`n` of a directory of at least one byte. -/
theorem drawLoop_items (scaled : Int → Option String) (items : List FsItem) :
    ∀ (num : Int) (items1 : List FsItem) (rows : List (List UInt8)),
      drawLoop scaled items num = some (items1, rows) →
      List.Forall₂ (fun a b => b = { a with n := b.n } ∧
        ((a.sizeBytes < 1 ∨ a.isDir = false) → b = a)) items items1 := by
  induction items with
  | nil =>
    intro num items1 rows h
    simp only [drawLoop, Option.some.injEq, Prod.mk.injEq] at h
    obtain ⟨rfl, rfl⟩ := h
    exact List.Forall₂.nil
  | cons item rest ih =>
    intro num items1 rows h
    unfold drawLoop at h
    split at h
    · cases hr : drawLoop scaled rest num with
      | none => simp [hr] at h
      | some r =>
        simp only [hr, Option.map_some', Option.some.injEq, Prod.mk.injEq] at h
        obtain ⟨rfl, rfl⟩ := h
        exact List.Forall₂.cons ⟨rfl, fun _ => rfl⟩ (ih num r.1 r.2 hr)
    · rename_i hge
      split at h
      · rename_i hdir
        simp only at h
        cases hf : formatBytes10 scaled item.sizeBytes with
        | none => simp [hf] at h
        | some sizeSec =>
          cases hr : drawLoop scaled rest (num + 1) with
          | none => simp [hf, hr] at h
          | some r =>
            simp only [hf, hr, Option.map_some', Option.some.injEq, Prod.mk.injEq] at h
            obtain ⟨rfl, rfl⟩ := h
            refine List.Forall₂.cons ⟨rfl, ?_⟩ (ih (num + 1) r.1 r.2 hr)
            rintro (hlt | hnd)
            · exact absurd hlt hge
            · simp [hdir] at hnd
      · simp only at h
        cases hf : formatBytes10 scaled item.sizeBytes with
        | none => simp [hf] at h
        | some sizeSec =>
          cases hr : drawLoop scaled rest num with
          | none => simp [hf, hr] at h
          | some r =>
            simp only [hf, hr, Option.map_some', Option.some.injEq, Prod.mk.injEq] at h
            obtain ⟨rfl, rfl⟩ := h
            exact List.Forall₂.cons ⟨rfl, fun _ => rfl⟩ (ih num r.1 r.2 hr)

/-- The numbers `draw` hands out: the directories of at least one byte get
`num`, `num + 1`, ... in list order. -/
theorem drawLoop_indices (scaled : Int → Option String) (items : List FsItem) :
    ∀ (num : Int) (items1 : List FsItem) (rows : List (List UInt8)),
      drawLoop scaled items num = some (items1, rows) →
      (items1.filter (fun e => e.isDir && decide (1 ≤ e.sizeBytes))).map (fun e => e.n)
        = (List.range (items.filter (fun e => e.isDir && decide (1 ≤ e.sizeBytes))).length).map
            (fun (j : Nat) => num + (j : Int)) := by
  induction items with
  | nil =>
    intro num items1 rows h
    simp only [drawLoop, Option.some.injEq, Prod.mk.injEq] at h
    obtain ⟨rfl, rfl⟩ := h
    rfl
  | cons item rest ih =>
    intro num items1 rows h
    unfold drawLoop at h
    split at h
    · rename_i hlt
      cases hr : drawLoop scaled rest num with
      | none => simp [hr] at h
      | some r =>
        simp only [hr, Option.map_some', Option.some.injEq, Prod.mk.injEq] at h
        obtain ⟨rfl, rfl⟩ := h
        have hn : ¬ (1 ≤ item.sizeBytes) := by omega
        simpa [List.filter_cons, hn] using ih num r.1 r.2 hr
    · rename_i hge
      have hp : 1 ≤ item.sizeBytes := by omega
      split at h
      · rename_i hdir
        simp only at h
        cases hf : formatBytes10 scaled item.sizeBytes with
        | none => simp [hf] at h
        | some sizeSec =>
          cases hr : drawLoop scaled rest (num + 1) with
          | none => simp [hf, hr] at h
          | some r =>
            simp only [hf, hr, Option.map_some', Option.some.injEq, Prod.mk.injEq] at h
            obtain ⟨rfl, rfl⟩ := h
            have := ih (num + 1) r.1 r.2 hr
            simp only [List.filter_cons, hdir, hp, decide_True, Bool.and_self, if_true,
              List.map_cons, List.length_cons, List.range_succ_eq_map, this, List.map_map,
              Nat.cast_zero, add_zero, List.cons.injEq, true_and]
            apply List.map_congr_left
            intro j _
            simp only [Function.comp, Nat.cast_succ]
            omega
      · rename_i hdir
        simp only at h
        cases hf : formatBytes10 scaled item.sizeBytes with
        | none => simp [hf] at h
        | some sizeSec =>
          cases hr : drawLoop scaled rest num with
          | none => simp [hf, hr] at h
          | some r =>
            simp only [hf, hr, Option.map_some', Option.some.injEq, Prod.mk.injEq] at h
            obtain ⟨rfl, rfl⟩ := h
            simpa [List.filter_cons, hdir] using ih num r.1 r.2 hr

/-- C9: after `draw`, the directories of at least one byte carry the numbers
1, 2, ..., m in the order of the listing (m is their count); every entry of
less than one byte and every file entry is left as it was (no number), no other
field of any entry changes, and the rows printed are exactly those of the
entries of at least one byte. -/
theorem draw_display_indices (scaled : Int → Option String) (items items1 : List FsItem)
    (rows : List (List UInt8)) (h : draw scaled items = some (items1, rows)) :
    (items1.filter (fun e => e.isDir && decide (1 ≤ e.sizeBytes))).map (fun e => e.n)
        = (List.range (items.filter (fun e => e.isDir && decide (1 ≤ e.sizeBytes))).length).map
            (fun (j : Nat) => (j : Int) + 1)
    ∧ List.Forall₂ (fun a b => b = { a with n := b.n } ∧
        ((a.sizeBytes < 1 ∨ a.isDir = false) → b = a)) items items1
    ∧ rows.map some
        = (items1.filter (fun e => decide (1 ≤ e.sizeBytes))).map (rowOf scaled) := by
  refine ⟨?_, drawLoop_items scaled items 1 items1 rows h, drawLoop_rows scaled items 1 items1 rows h⟩
  rw [drawLoop_indices scaled items 1 items1 rows h]
  apply List.map_congr_left
  intro j _
  omega

/-- The listing of the specification's example is drawn with the number 1 on
the directory `b` and none on the file `f`. -/
theorem draw_display_indices_witness :
    ∃ rows, draw noScaled exampleListing
        = some ([⟨false, "f", "/tmp/a/f", "/tmp/a", 100, 0⟩,
                 ⟨true, "b", "/tmp/a/b", "/tmp/a", 50, 1⟩], rows)
      ∧ rows.length = 2
      ∧ (([⟨false, "f", "/tmp/a/f", "/tmp/a", 100, 0⟩,
           ⟨true, "b", "/tmp/a/b", "/tmp/a", 50, 1⟩] : List FsItem).filter
            (fun e => e.isDir && decide (1 ≤ e.sizeBytes))).map (fun e => e.n)
          = (List.range (exampleListing.filter
              (fun e => e.isDir && decide (1 ≤ e.sizeBytes))).length).map
              (fun (j : Nat) => (j : Int) + 1) :=
  ⟨_, by rfl, by rfl, (draw_display_indices noScaled exampleListing _ _ (by rfl)).1⟩

/-- C7 (counterexample): the directory whose only entry is a file with
unreadable metadata is listed with `sizeBytes = -1` for it, and `draw` prints
no row at all. -/
theorem unreadable_file_has_no_row :
    listDirContents goPaths "/tmp/a" brokenFileDir (spawned goPaths "/tmp/a" [("x", .broken false)])
        = .ok [⟨false, "x", "/tmp/a/x", "/tmp/a", -1, 0⟩]
    ∧ draw noScaled [⟨false, "x", "/tmp/a/x", "/tmp/a", -1, 0⟩]
        = some ([⟨false, "x", "/tmp/a/x", "/tmp/a", -1, 0⟩], []) := by
  constructor <;> rfl

/-- The case `..` of the `switch`, for any library. -/
theorem dotdot_branch (lib : PathLib) (p : String) (dirItems : List FsItem) :
    selectEvent lib p dirItems (.input "..")
      = .browse (if p = "/" then p else lib.filepathDir p) := by
  have h1 : ¬ (".." ∈ ["q", "\\q", "quit", "exit", "bye", "bye!"]) := by decide
  have h2 : ¬ (".." ∈ ["open", "finder"]) := by decide
  have h3 : ¬ (".." = "reveal") := by decide
  have h4 : ¬ (".." = ".") := by decide
  show handleCommand lib p dirItems ".." = _
  unfold handleCommand rootPath
  rw [if_neg h1, if_neg h2, if_neg h3, if_neg h4, if_pos rfl]
  split <;> rfl

/-! ## The merge loop -/

theorem mergeSizes_eq_map (arrivals : List FsItemSize) :
    ∀ results : List FsItem,
      mergeSizes results arrivals = results.map (fun r => arrivals.foldl applySize r) := by
  induction arrivals with
  | nil => intro results; simp [mergeSizes]
  | cons a rest ih =>
    intro results
    have h := ih (mergeSize results a)
    simp only [mergeSizes, List.foldl_cons] at h ⊢
    rw [h]
    simp [mergeSize, List.map_map, Function.comp]

theorem applySize_fields (r : FsItem) (a : FsItemSize) :
    (applySize r a).isDir = r.isDir ∧ (applySize r a).name = r.name
    ∧ (applySize r a).fullPath = r.fullPath ∧ (applySize r a).parentPath = r.parentPath
    ∧ (applySize r a).n = r.n := by
  unfold applySize
  split <;> simp

theorem foldl_applySize_fields (arrivals : List FsItemSize) :
    ∀ r : FsItem,
      (arrivals.foldl applySize r).isDir = r.isDir ∧ (arrivals.foldl applySize r).name = r.name
      ∧ (arrivals.foldl applySize r).fullPath = r.fullPath
      ∧ (arrivals.foldl applySize r).parentPath = r.parentPath
      ∧ (arrivals.foldl applySize r).n = r.n := by
  induction arrivals with
  | nil => intro r; simp
  | cons a rest ih =>
    intro r
    simp only [List.foldl_cons]
    obtain ⟨h1, h2, h3, h4, h5⟩ := ih (applySize r a)
    obtain ⟨g1, g2, g3, g4, g5⟩ := applySize_fields r a
    exact ⟨h1.trans g1, h2.trans g2, h3.trans g3, h4.trans g4, h5.trans g5⟩

theorem foldl_applySize_nomatch (arrivals : List FsItemSize) (r : FsItem)
    (h : ∀ a ∈ arrivals, ¬ (r.fullPath = a.path ∧ r.isDir = true)) :
    arrivals.foldl applySize r = r := by
  induction arrivals with
  | nil => rfl
  | cons a rest ih =>
    simp only [List.foldl_cons]
    have ha : applySize r a = r := by
      unfold applySize
      rw [if_neg (h a (List.mem_cons_self a rest))]
    rw [ha]
    exact ih (fun b hb => h b (List.mem_cons_of_mem a hb))

theorem foldl_applySize_file (arrivals : List FsItemSize) (r : FsItem) (h : r.isDir = false) :
    arrivals.foldl applySize r = r :=
  foldl_applySize_nomatch arrivals r (fun _ _ hc => by simp [h] at hc)

theorem foldl_applySize_match (arrivals : List FsItemSize) :
    ∀ (r : FsItem) (sr : FsItemSize), r.isDir = true →
      (arrivals.map (fun a => a.path)).Nodup → sr ∈ arrivals → sr.path = r.fullPath →
      (arrivals.foldl applySize r).sizeBytes = sr.size := by
  induction arrivals with
  | nil => intro r sr _ _ hm; simp at hm
  | cons a rest ih =>
    intro r sr hd hn hm hp
    simp only [List.map_cons, List.nodup_cons, List.mem_map, not_exists, not_and] at hn
    simp only [List.foldl_cons]
    by_cases hpa : a.path = r.fullPath
    · have hsr : sr = a := by
        rcases List.mem_cons.1 hm with h | h
        · exact h
        · exact absurd (hp.trans hpa.symm) (hn.1 sr h)
      subst hsr
      have ha : applySize r sr = { r with sizeBytes := sr.size } := by
        unfold applySize
        rw [if_pos ⟨hp.symm, hd⟩]
      rw [ha, foldl_applySize_nomatch]
      intro b hb hc
      exact hn.1 b hb (hc.1.symm.trans hp.symm)
    · have ha : applySize r a = r := by
        unfold applySize
        rw [if_neg (fun hc => hpa hc.1.symm)]
      rw [ha]
      rcases List.mem_cons.1 hm with h | h
      · exact absurd (h ▸ hp) hpa
      · exact ih r sr hd hn.2 h hp

/-- An entry of less than one byte adds nothing to what `draw` prints: the rows
are those printed for the listing without it. -/
theorem drawLoop_skips_small (scaled : Int → Option String) (e : FsItem) (post : List FsItem)
    (he : e.sizeBytes < 1) :
    ∀ (pre : List FsItem) (num : Int),
      (drawLoop scaled (pre ++ e :: post) num).map Prod.snd
        = (drawLoop scaled (pre ++ post) num).map Prod.snd := by
  intro pre
  induction pre with
  | nil =>
    intro num
    simp only [List.nil_append]
    rw [drawLoop, if_pos he]
    cases drawLoop scaled post num <;> rfl
  | cons x xs ih =>
    intro num
    simp only [List.cons_append]
    rw [drawLoop, drawLoop]
    by_cases h1 : x.sizeBytes < 1
    · simp only [h1, if_true]
      have := ih num
      cases hA : drawLoop scaled (xs ++ e :: post) num <;>
        cases hB : drawLoop scaled (xs ++ post) num <;> simp_all
    · simp only [h1, if_false]
      by_cases h2 : x.isDir = true
      · simp only [h2, if_true]
        cases hf : formatBytes10 scaled x.sizeBytes with
        | none => rfl
        | some sizeSec =>
          have := ih (num + 1)
          cases hA : drawLoop scaled (xs ++ e :: post) (num + 1) <;>
            cases hB : drawLoop scaled (xs ++ post) (num + 1) <;> simp_all
      · simp only [h2, if_false]
        cases hf : formatBytes10 scaled x.sizeBytes with
        | none => rfl
        | some sizeSec =>
          have := ih num
          cases hA : drawLoop scaled (xs ++ e :: post) num <;>
            cases hB : drawLoop scaled (xs ++ post) num <;> simp_all

/-- C7 (amended): a file entry whose metadata cannot be read is kept in the
list `listDirContents` returns, at some position, with `sizeBytes = -1`; `draw`
emits no row for it: what `draw` prints for the listing is what it prints for
the listing with that entry taken out, and the rows are exactly those of the
entries of at least one byte. -/
theorem unreadable_file_recorded (lib : PathLib) (path : String) (size : Int)
    (dirItems : List (String × FsNode)) (arrivals : List FsItemSize) (items : List FsItem)
    (name : String)
    (h : listDirContents lib path (.dir size dirItems) arrivals = .ok items)
    (hmem : (name, FsNode.broken false) ∈ dirItems) :
    ∃ (pre : List FsItem) (e : FsItem) (post : List FsItem),
      items = pre ++ e :: post
      ∧ e.name = name ∧ e.fullPath = lib.filepathJoin path name ∧ e.isDir = false
      ∧ e.sizeBytes = -1
      ∧ (∀ scaled : Int → Option String,
          (draw scaled items).map Prod.snd = (draw scaled (pre ++ post)).map Prod.snd)
      ∧ ∀ (scaled : Int → Option String) (items1 : List FsItem) (rows : List (List UInt8)),
          draw scaled items = some (items1, rows) →
          rows.map some
            = (items1.filter (fun e => decide (1 ≤ e.sizeBytes))).map (rowOf scaled) := by
  obtain ⟨size1, dirItems1, hnode, -, rfl⟩ := listDirContents_ok lib path _ arrivals items h
  cases hnode
  have he : newItem lib path (name, .broken false)
      ∈ sortSlice sorter (mergeSizes (dirItems.map (newItem lib path)) arrivals) := by
    rw [mem_sortSlice, mergeSizes_eq_map, List.mem_map]
    refine ⟨newItem lib path (name, .broken false), List.mem_map_of_mem _ hmem, ?_⟩
    exact foldl_applySize_file arrivals _ rfl
  obtain ⟨pre, post, hsplit⟩ := List.append_of_mem he
  refine ⟨pre, newItem lib path (name, .broken false), post, hsplit, rfl, rfl, rfl, rfl, ?_, ?_⟩
  · intro scaled
    rw [hsplit]
    exact drawLoop_skips_small scaled _ post (show ((-1 : Int) < 1) by decide) pre 1
  · intro scaled items1 rows hd
    exact drawLoop_rows scaled _ 1 items1 rows hd

/-- The amended C7 on the directory whose only entry is an unreadable file: the
entry is listed with -1 and `draw` prints what it prints for no entry. -/
theorem unreadable_file_recorded_witness :
    ∃ (pre : List FsItem) (e : FsItem) (post : List FsItem),
      ([⟨false, "x", "/tmp/a/x", "/tmp/a", -1, 0⟩] : List FsItem) = pre ++ e :: post
      ∧ e.name = "x" ∧ e.fullPath = goPaths.filepathJoin "/tmp/a" "x" ∧ e.isDir = false
      ∧ e.sizeBytes = -1
      ∧ (∀ scaled : Int → Option String,
          (draw scaled [⟨false, "x", "/tmp/a/x", "/tmp/a", -1, 0⟩]).map Prod.snd
            = (draw scaled (pre ++ post)).map Prod.snd)
      ∧ ∀ (scaled : Int → Option String) (items1 : List FsItem) (rows : List (List UInt8)),
          draw scaled [⟨false, "x", "/tmp/a/x", "/tmp/a", -1, 0⟩] = some (items1, rows) →
          rows.map some
            = (items1.filter (fun e => decide (1 ≤ e.sizeBytes))).map (rowOf scaled) :=
  unreadable_file_recorded goPaths "/tmp/a" 96 [("x", .broken false)]
    (spawned goPaths "/tmp/a" [("x", .broken false)]) _ "x" (by rfl) (by simp)

/-! ## `strconv.Atoi` on decimal numerals -/

theorem digitChar_isDigit :
    ∀ d, d < 10 → ('0' ≤ Nat.digitChar d ∧ Nat.digitChar d ≤ '9')
      ∧ (Nat.digitChar d).toNat - '0'.toNat = d := by
  decide

theorem parseDigits_append (xs ys : List Char) :
    ∀ (acc v : Nat), parseDigits xs acc = some v →
      parseDigits (xs ++ ys) acc = parseDigits ys v := by
  induction xs with
  | nil =>
    intro acc v h
    simp only [parseDigits, Option.some.injEq] at h
    simp [h]
  | cons c cs ih =>
    intro acc v h
    simp only [parseDigits, List.cons_append] at h ⊢
    split at h
    · rename_i hc
      rw [if_pos hc]
      exact ih _ _ h
    · simp at h

theorem parseDigits_all_digits (xs : List Char) :
    ∀ (acc v : Nat), parseDigits xs acc = some v → ∀ c ∈ xs, '0' ≤ c ∧ c ≤ '9' := by
  induction xs with
  | nil => intro _ _ _ c hc; simp at hc
  | cons x cs ih =>
    intro acc v h c hc
    simp only [parseDigits] at h
    split at h
    · rename_i hx
      rcases List.mem_cons.1 hc with rfl | hc
      · exact hx
      · exact ih _ _ h c hc
    · simp at h

theorem toDigitsCore_append (fuel : Nat) :
    ∀ (n : Nat) (ds : List Char),
      Nat.toDigitsCore 10 fuel n ds = Nat.toDigitsCore 10 fuel n [] ++ ds := by
  induction fuel with
  | zero => intro n ds; simp [Nat.toDigitsCore]
  | succ fuel ih =>
    intro n ds
    simp only [Nat.toDigitsCore]
    split
    · simp
    · rw [ih (n / 10) (Nat.digitChar (n % 10) :: ds), ih (n / 10) [Nat.digitChar (n % 10)]]
      simp

theorem parseDigits_toDigitsCore (fuel : Nat) :
    ∀ n : Nat, n < fuel →
      Nat.toDigitsCore 10 fuel n [] ≠ [] ∧ parseDigits (Nat.toDigitsCore 10 fuel n []) 0 = some n := by
  induction fuel with
  | zero => intro n h; omega
  | succ fuel ih =>
    intro n hn
    have hd := digitChar_isDigit (n % 10) (Nat.mod_lt n (by decide))
    simp only [Nat.toDigitsCore]
    split
    · rename_i h0
      refine ⟨by simp, ?_⟩
      simp only [parseDigits, hd.1, and_self, if_true, hd.2, Option.some.injEq]
      omega
    · rename_i h0
      rw [toDigitsCore_append]
      have hlt : n / 10 < fuel := by omega
      obtain ⟨-, hp⟩ := ih (n / 10) hlt
      refine ⟨by simp, ?_⟩
      rw [parseDigits_append _ _ 0 (n / 10) hp]
      simp only [parseDigits, hd.1, and_self, if_true, hd.2, Option.some.injEq]
      omega

/-- The call `strconv.Atoi` reads back the decimal numeral of every
non-negative value of type `int`. -/
theorem atoi_repr (k : Nat) (hk : k ≤ 9223372036854775807) :
    atoi (Nat.repr k) = some (k : Int) := by
  obtain ⟨hne, hp⟩ := parseDigits_toDigitsCore (k + 1) k (Nat.lt_succ_self k)
  have hdig := parseDigits_all_digits _ 0 k hp
  have hdata : (Nat.repr k).data = Nat.toDigitsCore 10 (k + 1) k [] := rfl
  unfold atoi
  rw [hdata]
  split
  · rename_i heq
    exact absurd heq hne
  · rename_i ds heq
    have := hdig '-' (by rw [heq]; exact List.mem_cons_self _ _)
    exact absurd this.1 (by decide)
  · rename_i ds heq
    have := hdig '+' (by rw [heq]; exact List.mem_cons_self _ _)
    exact absurd this.1 (by decide)
  · simp only [hne, if_false, hp, Bool.false_eq_true, if_pos hk]

/-- A command that `strconv.Atoi` accepts reaches the search loop of the
`default` case. -/
theorem handleCommand_of_atoi (lib : PathLib) (p : String) (dirItems : List FsItem)
    (command : String) (k : Int) (h : atoi command = some k) :
    handleCommand lib p dirItems command
      = match dirItems.find? (fun item => item.n == k) with
        | some item => .browse (lib.pathJoin p item.name)
        | none => .browse p := by
  have hnone : ∀ c ∈ ["q", "\\q", "quit", "exit", "bye", "bye!", "open", "finder", "reveal",
      ".", ".."], atoi c = none := by decide
  have hsome : ∀ c ∈ ["q", "\\q", "quit", "exit", "bye", "bye!", "open", "finder", "reveal",
      ".", ".."], command ≠ c := by
    rintro c hc rfl
    rw [hnone _ hc] at h
    cases h
  have h1 : ¬ (command ∈ ["q", "\\q", "quit", "exit", "bye", "bye!"]) := by
    intro hc
    exact hsome command (by
      simp only [List.mem_cons, List.mem_singleton, List.not_mem_nil, or_false] at hc ⊢
      tauto) rfl
  have h2 : ¬ (command ∈ ["open", "finder"]) := by
    intro hc
    exact hsome command (by
      simp only [List.mem_cons, List.mem_singleton, List.not_mem_nil, or_false] at hc ⊢
      tauto) rfl
  have h3 : ¬ (command = "reveal") := hsome "reveal" (by decide)
  have h4 : ¬ (command = ".") := hsome "." (by decide)
  have h5 : ¬ (command = "..") := hsome ".." (by decide)
  unfold handleCommand
  rw [if_neg h1, if_neg h2, if_neg h3, if_neg h4, if_neg h5, h]

/-! ## Selecting a directory by its number -/

theorem newItem_fields (lib : PathLib) (path : String) (c : String × FsNode) :
    (newItem lib path c).isDir = c.2.isDirEntry ∧ (newItem lib path c).name = c.1
    ∧ (newItem lib path c).fullPath = lib.filepathJoin path c.1
    ∧ (newItem lib path c).parentPath = path ∧ (newItem lib path c).n = 0 := by
  unfold newItem
  split
  · split <;> simp_all
  · simp_all

theorem mem_listing (lib : PathLib) (path : String) (dirItems : List (String × FsNode))
    (arrivals : List FsItemSize) (e : FsItem) :
    e ∈ sortSlice sorter (mergeSizes (dirItems.map (newItem lib path)) arrivals)
      ↔ ∃ c ∈ dirItems, e = arrivals.foldl applySize (newItem lib path c) := by
  rw [mem_sortSlice, mergeSizes_eq_map]
  simp only [List.mem_map, exists_exists_and_eq_and]
  constructor
  · rintro ⟨c, hc, rfl⟩; exact ⟨c, hc, rfl⟩
  · rintro ⟨c, hc, rfl⟩; exact ⟨c, hc, rfl⟩

theorem listDirContents_n_zero (lib : PathLib) (path : String) (node : FsNode)
    (arrivals : List FsItemSize) (items : List FsItem)
    (h : listDirContents lib path node arrivals = .ok items) :
    ∀ e ∈ items, e.n = 0 := by
  obtain ⟨size, dirItems, -, -, rfl⟩ := listDirContents_ok lib path node arrivals items h
  intro e he
  obtain ⟨c, -, rfl⟩ := (mem_listing lib path dirItems arrivals e).1 he
  rw [(foldl_applySize_fields arrivals _).2.2.2.2]
  exact (newItem_fields lib path c).2.2.2.2

theorem forall₂_mem_right {R : FsItem → FsItem → Prop} {l1 l2 : List FsItem}
    (h : List.Forall₂ R l1 l2) : ∀ b ∈ l2, ∃ a ∈ l1, R a b := by
  induction h with
  | nil => intro b hb; simp at hb
  | cons hab _ ih =>
    intro b hb
    rcases List.mem_cons.1 hb with rfl | hb
    · exact ⟨_, List.mem_cons_self _ _, hab⟩
    · obtain ⟨a, ha, hr⟩ := ih b hb
      exact ⟨a, List.mem_cons_of_mem _ ha, hr⟩

/-- After `draw` on a listing whose numbers are all 0, an entry with a number
other than 0 is a directory of at least one byte. -/
theorem draw_numbered_is_directory (scaled : Int → Option String) (items0 items : List FsItem)
    (rows : List (List UInt8)) (hz : ∀ a ∈ items0, a.n = 0)
    (hd : draw scaled items0 = some (items, rows))
    (x : FsItem) (hx : x ∈ items) (hxn : x.n ≠ 0) :
    x.isDir = true ∧ 1 ≤ x.sizeBytes := by
  have hrel := drawLoop_items scaled items0 1 items rows hd
  obtain ⟨a, ha, hxa, hsame⟩ := forall₂_mem_right hrel x hx
  have h1 : x.isDir = a.isDir := by rw [hxa]
  have h2 : x.sizeBytes = a.sizeBytes := by rw [hxa]
  by_contra hnot
  have hcond : a.sizeBytes < 1 ∨ a.isDir = false := by
    by_contra hc
    apply hnot
    rw [h1, h2]
    constructor
    · cases hb : a.isDir
      · exact absurd (Or.inr hb) hc
      · rfl
    · by_contra hlt
      exact hc (Or.inl (by omega))
  apply hxn
  rw [hsame hcond]
  exact hz a ha

/-- After `draw` on a listing whose numbers are all 0, the number of a numbered
directory is between 1 and the length of the listing and is carried by no other
entry. -/
theorem draw_number_unique (scaled : Int → Option String) (items0 items : List FsItem)
    (rows : List (List UInt8)) (hz : ∀ a ∈ items0, a.n = 0)
    (hd : draw scaled items0 = some (items, rows))
    (e : FsItem) (he : e ∈ items) (hdir : e.isDir = true) (hsz : 1 ≤ e.sizeBytes) :
    1 ≤ e.n ∧ e.n ≤ (items0.length : Int) ∧ ∀ x ∈ items, x.n = e.n → x = e := by
  have hidx := drawLoop_indices scaled items0 1 items rows hd
  have hnd : ((items.filter (fun e => e.isDir && decide (1 ≤ e.sizeBytes))).map
      (fun e => e.n)).Nodup := by
    rw [hidx]
    refine List.Nodup.map ?_ (List.nodup_range _)
    intro a b hab
    simp only at hab
    omega
  have heF : e ∈ items.filter (fun e => e.isDir && decide (1 ≤ e.sizeBytes)) := by
    simp [List.mem_filter, he, hdir, hsz]
  have hen : e.n ∈ (List.range (items0.filter
      (fun e => e.isDir && decide (1 ≤ e.sizeBytes))).length).map (fun (j : Nat) => 1 + (j : Int)) := by
    rw [← hidx]
    exact List.mem_map_of_mem _ heF
  obtain ⟨j, hj, hjn⟩ := List.mem_map.1 hen
  have hjlt : j < items0.length :=
    lt_of_lt_of_le (List.mem_range.1 hj) (List.length_filter_le _ _)
  refine ⟨by omega, by omega, ?_⟩
  intro x hx hxn
  have hx0 : x.n ≠ 0 := by omega
  obtain ⟨g1, g2⟩ := draw_numbered_is_directory scaled items0 items rows hz hd x hx hx0
  have hxF : x ∈ items.filter (fun e => e.isDir && decide (1 ≤ e.sizeBytes)) := by
    simp [List.mem_filter, hx, g1, g2]
  exact List.inj_on_of_nodup_map hnd hxF heF hxn

/-- An integer command other than 0 that is the number of no directory of the
rendered listing leaves the current path as it is. -/
theorem absent_nonzero_index_is_noop (lib : PathLib) (p : String) (node : FsNode)
    (arrivals : List FsItemSize) (scaled : Int → Option String)
    (items0 items : List FsItem) (rows : List (List UInt8)) (command : String) (k : Int)
    (hl : listDirContents lib p node arrivals = .ok items0)
    (hd : draw scaled items0 = some (items, rows))
    (hc : atoi command = some k) (hk : k ≠ 0)
    (habs : ∀ e ∈ items, e.isDir = true → e.n ≠ k) :
    selectEvent lib p items (.input command) = .browse p := by
  have hz := listDirContents_n_zero lib p node arrivals items0 hl
  show handleCommand lib p items command = _
  rw [handleCommand_of_atoi lib p items command k hc]
  cases hf : items.find? (fun item => item.n == k) with
  | none => rfl
  | some x =>
    have hxn : x.n = k := by simpa using List.find?_some hf
    have hx : x ∈ items := List.mem_of_find?_eq_some hf
    have hx0 : x.n ≠ 0 := by rw [hxn]; exact hk
    obtain ⟨g1, -⟩ := draw_numbered_is_directory scaled items0 items rows hz hd x hx hx0
    exact absurd hxn (habs x hx g1)

/-- C4: when the last rendered listing (the list `listDirContents` returned for
the current path `p`, after `draw`) holds a directory entry `e` that was given
the number `k` by `draw`, the command consisting of the decimal numeral of
`k` sets the current path to `path.Join(p, e.name)`.  The length of a Go slice
is a value of type `int` (`hlen`). -/
theorem index_command_enters_directory (lib : PathLib) (p : String) (node : FsNode)
    (arrivals : List FsItemSize) (scaled : Int → Option String)
    (items0 items : List FsItem) (rows : List (List UInt8)) (e : FsItem) (k : Nat)
    (hl : listDirContents lib p node arrivals = .ok items0)
    (hlen : items0.length ≤ 9223372036854775807)
    (hd : draw scaled items0 = some (items, rows))
    (he : e ∈ items) (hdir : e.isDir = true) (hsz : 1 ≤ e.sizeBytes) (hk : e.n = (k : Int)) :
    selectEvent lib p items (.input (Nat.repr k)) = .browse (lib.pathJoin p e.name) := by
  have hz := listDirContents_n_zero lib p node arrivals items0 hl
  obtain ⟨h1, h2, huniq⟩ := draw_number_unique scaled items0 items rows hz hd e he hdir hsz
  have hk63 : k ≤ 9223372036854775807 := by omega
  show handleCommand lib p items (Nat.repr k) = _
  rw [handleCommand_of_atoi lib p items (Nat.repr k) (k : Int) (atoi_repr k hk63)]
  cases hf : items.find? (fun item => item.n == (k : Int)) with
  | none =>
    have := List.find?_eq_none.1 hf e he
    simp [hk] at this
  | some x =>
    have hxn : x.n = (k : Int) := by simpa using List.find?_some hf
    have hx : x ∈ items := List.mem_of_find?_eq_some hf
    rw [huniq x hx (hxn.trans hk.symm)]

/-- In the listing of the specification's example the directory `b` is given
the number 1, and the command `1` enters `/tmp/a/b`. -/
theorem index_command_enters_directory_witness :
    selectEvent goPaths "/tmp/a"
        [⟨false, "f", "/tmp/a/f", "/tmp/a", 100, 0⟩, ⟨true, "b", "/tmp/a/b", "/tmp/a", 50, 1⟩]
        (.input "1")
      = .browse "/tmp/a/b" :=
  index_command_enters_directory goPaths "/tmp/a" exampleTree
    (spawned goPaths "/tmp/a" exampleEntries) noScaled exampleListing
    [⟨false, "f", "/tmp/a/f", "/tmp/a", 100, 0⟩, ⟨true, "b", "/tmp/a/b", "/tmp/a", 50, 1⟩]
    _ ⟨true, "b", "/tmp/a/b", "/tmp/a", 50, 1⟩ 1
    (by rfl) (by decide) (by rfl) (by simp) rfl (by decide) rfl

/-- C3 (failing input): in the specification's example `/tmp/a` the file `f`
keeps the number 0 it was created with (`draw` gives 1 to the directory `b`),
so the turn of the loop that reads the command `0` makes the path of the file
the current path; the next turn cannot list it and falls back to the root
path. -/
theorem zero_command_enters_file :
    (draw noScaled exampleListing).map Prod.fst
        = some [⟨false, "f", "/tmp/a/f", "/tmp/a", 100, 0⟩,
                ⟨true, "b", "/tmp/a/b", "/tmp/a", 50, 1⟩]
    ∧ mainLoopTurn goPaths noScaled "/tmp/a" exampleTree
        (spawned goPaths "/tmp/a" exampleEntries) (.input "0")
      = some (.browse "/tmp/a/f")
    ∧ mainLoopTurn goPaths noScaled "/tmp/a/f" (.file 100) [] (.input ".")
      = some (.browse "/") := by
  refine ⟨by rfl, by rfl, by rfl⟩

/-! ## The subtree walk -/

theorem wrap64_wrap64_add (a b : Int) : wrap64 (wrap64 a + b) = wrap64 (a + b) := by
  unfold wrap64; omega

theorem wrap64_wrap64 (a : Int) : wrap64 (wrap64 a) = wrap64 a := by
  unfold wrap64; omega

theorem wrap64_of_fits (a : Int) (h1 : -9223372036854775808 ≤ a) (h2 : a ≤ 9223372036854775807) :
    wrap64 a = a := by
  unfold wrap64; omega

theorem sumBeforeFailure_append (l1 l2 : List (Option Int)) :
    sumBeforeFailure (l1 ++ l2)
      = if l1.any Option.isNone then sumBeforeFailure l1
        else sumBeforeFailure l1 + sumBeforeFailure l2 := by
  induction l1 with
  | nil => simp [sumBeforeFailure]
  | cons x xs ih =>
    cases x with
    | none => simp [sumBeforeFailure]
    | some v =>
      rw [List.cons_append]
      simp only [sumBeforeFailure, List.any_cons, Option.isNone_some, Bool.false_or]
      rw [ih]
      split <;> omega

mutual
/-- The walk adds up, modulo `2^64`, the visits before the first failure, and
reports an error exactly when some path cannot be read. -/
theorem walk_visits : ∀ (node : FsNode) (s : Int), wrap64 s = s →
    walk walkFn node s
      = (wrap64 (s + sumBeforeFailure (visits node)), (visits node).any Option.isNone)
  | .file size, s, _ => by
    simp [walk, walkFn, visits, sumBeforeFailure]
  | .dir size children, s, hs => by
    have h := walkList_visits children s hs
    simp [walk, walkFn, visits, sumBeforeFailure, h]
  | .lockedDir size, s, hs => by
    simp [walk, walkFn, visits, sumBeforeFailure, hs]
  | .broken d, s, hs => by
    simp [walk, walkFn, visits, sumBeforeFailure, hs]
theorem walkList_visits : ∀ (children : List (String × FsNode)) (s : Int), wrap64 s = s →
    walkList walkFn children s
      = (wrap64 (s + sumBeforeFailure (visitsList children)),
          (visitsList children).any Option.isNone)
  | [], s, hs => by
    simp [walkList, visitsList, sumBeforeFailure, hs]
  | c :: rest, s, hs => by
    have h1 := walk_visits c.2 s hs
    have h2 := walkList_visits rest (wrap64 (s + sumBeforeFailure (visits c.2)))
      (wrap64_wrap64 _)
    simp only [walkList, visitsList, h1, sumBeforeFailure_append, List.any_append]
    cases hany : (visits c.2).any Option.isNone
    · simp only [Bool.false_eq_true, if_false, h2, wrap64_wrap64_add, Bool.false_or, add_assoc]
    · simp
end

mutual
theorem sum_visits_readable : ∀ (node : FsNode), readable node = true →
    sumBeforeFailure (visits node) = fileTotal node
  | .file size, _ => by simp [visits, sumBeforeFailure, fileTotal]
  | .dir size children, h => by
    have := sum_visitsList_readable children (by simpa [readable, visits] using h)
    simp [visits, sumBeforeFailure, fileTotal, this]
  | .lockedDir size, h => by simp [readable, visits] at h
  | .broken d, h => by simp [readable, visits] at h
theorem sum_visitsList_readable : ∀ (children : List (String × FsNode)),
    (visitsList children).all Option.isSome = true →
    sumBeforeFailure (visitsList children) = fileTotalList children
  | [], _ => by simp [visitsList, sumBeforeFailure, fileTotalList]
  | c :: rest, h => by
    simp only [visitsList, List.all_append, Bool.and_eq_true] at h
    have h1 := sum_visits_readable c.2 h.1
    have h2 := sum_visitsList_readable rest h.2
    have hany : (visits c.2).any Option.isNone = false := by
      rw [Bool.eq_false_iff]
      intro hc
      obtain ⟨x, hx, hn⟩ := List.any_eq_true.1 hc
      have hsome := List.all_eq_true.1 h.1 x hx
      cases x with
      | none => simp at hsome
      | some v => simp at hn
    simp [visitsList, sumBeforeFailure_append, hany, fileTotalList, h1, h2]
end

/-- C6 (counterexample): in the subtree `z` the entry `a` cannot be read and
its sibling `b`, visited after it, is a readable file of 7 bytes; `calcDirSize`
reports 0 and not 7. -/
theorem walk_aborts_at_unreadable_entry :
    (calcDirSize "/tmp/a/z" partlyUnreadable).size = 0
    ∧ fileTotal partlyUnreadable = 7
    ∧ walkFailed partlyUnreadable = true := by
  refine ⟨by rfl, by rfl, by rfl⟩

/-- C6 (amended): `calcDirSize` always sends a message for its path; the walk
ends at the first path of the subtree that cannot be read, and the size sent is
the sum (reduced to `int64`) of the sizes of the non-directory files visited
before that path; what comes after it in walk order is not added.  An error is
logged exactly when some path cannot be read. -/
theorem calcDirSize_sums_until_first_error (path : String) (node : FsNode) :
    (calcDirSize path node).path = path
    ∧ (calcDirSize path node).size = wrap64 (sumBeforeFailure (visits node))
    ∧ walkFailed node = (visits node).any Option.isNone := by
  have h := walk_visits node 0 (by rfl)
  refine ⟨rfl, ?_, ?_⟩
  · simp [calcDirSize, h]
  · simp [walkFailed, h]

/-! ## Sizes in the listing -/

theorem fsItem_eq_of_fields (a b : FsItem) (h1 : a.isDir = b.isDir) (h2 : a.name = b.name)
    (h3 : a.fullPath = b.fullPath) (h4 : a.parentPath = b.parentPath)
    (h5 : a.sizeBytes = b.sizeBytes) (h6 : a.n = b.n) : a = b := by
  cases a; cases b; simp_all

theorem spawned_cons (lib : PathLib) (path : String) (c : String × FsNode)
    (rest : List (String × FsNode)) :
    spawned lib path (c :: rest)
      = if c.2.isDirEntry = true then
          calcDirSize (lib.filepathJoin path c.1) c.2 :: spawned lib path rest
        else spawned lib path rest := by
  obtain ⟨h1, -, h3, -, -⟩ := newItem_fields lib path c
  unfold spawned
  rw [List.filterMap_cons]
  by_cases hd : c.2.isDirEntry = true
  · simp [h1, h3, hd]
  · simp [h1, hd]

theorem spawned_mem (lib : PathLib) (path : String) (dirItems : List (String × FsNode))
    (c : String × FsNode) (hc : c ∈ dirItems) (hd : c.2.isDirEntry = true) :
    calcDirSize (lib.filepathJoin path c.1) c.2 ∈ spawned lib path dirItems := by
  induction dirItems with
  | nil => simp at hc
  | cons x xs ih =>
    rw [spawned_cons]
    rcases List.mem_cons.1 hc with rfl | hc
    · simp [hd]
    · split
      · exact List.mem_cons_of_mem _ (ih hc)
      · exact ih hc

theorem spawned_path_mem (lib : PathLib) (path : String) (dirItems : List (String × FsNode)) :
    ∀ sr ∈ spawned lib path dirItems,
      sr.path ∈ dirItems.map (fun c => lib.filepathJoin path c.1) := by
  induction dirItems with
  | nil => intro sr h; simp [spawned] at h
  | cons x xs ih =>
    intro sr h
    rw [spawned_cons] at h
    split at h
    · rcases List.mem_cons.1 h with rfl | h
      · simp [calcDirSize]
      · exact List.mem_cons_of_mem _ (ih sr h)
    · exact List.mem_cons_of_mem _ (ih sr h)

theorem spawned_nodup (lib : PathLib) (path : String) (dirItems : List (String × FsNode))
    (hnd : (dirItems.map (fun c => lib.filepathJoin path c.1)).Nodup) :
    ((spawned lib path dirItems).map (fun a => a.path)).Nodup := by
  induction dirItems with
  | nil => simp [spawned]
  | cons x xs ih =>
    rw [List.map_cons, List.nodup_cons] at hnd
    rw [spawned_cons]
    split
    · rw [List.map_cons, List.nodup_cons]
      refine ⟨?_, ih hnd.2⟩
      intro hmem
      obtain ⟨sr, hsr, hp⟩ := List.mem_map.1 hmem
      apply hnd.1
      have := spawned_path_mem lib path xs sr hsr
      rw [hp] at this
      exact this
    · exact ih hnd.2

/-- What the merge loop leaves in the element built for the entry `c`, for
every order of arrival of the messages. -/
theorem merged_entry (lib : PathLib) (path : String) (dirItems : List (String × FsNode))
    (arrivals : List FsItemSize)
    (hnd : (dirItems.map (fun c => lib.filepathJoin path c.1)).Nodup)
    (harr : arrivals.Perm (spawned lib path dirItems))
    (c : String × FsNode) (hc : c ∈ dirItems) :
    arrivals.foldl applySize (newItem lib path c)
      = { newItem lib path c with
          sizeBytes := if c.2.isDirEntry = true then (walk walkFn c.2 0).1
                       else (newItem lib path c).sizeBytes } := by
  obtain ⟨f1, f2, f3, f4, f5⟩ := foldl_applySize_fields arrivals (newItem lib path c)
  obtain ⟨n1, n2, n3, n4, n5⟩ := newItem_fields lib path c
  refine fsItem_eq_of_fields _ _ f1 f2 f3 f4 ?_ f5
  show (arrivals.foldl applySize (newItem lib path c)).sizeBytes
    = if c.2.isDirEntry = true then (walk walkFn c.2 0).1 else (newItem lib path c).sizeBytes
  by_cases hd : c.2.isDirEntry = true
  · have hnd2 : (arrivals.map (fun a => a.path)).Nodup :=
      ((harr.map _).nodup_iff).2 (spawned_nodup lib path dirItems hnd)
    have hm : calcDirSize (lib.filepathJoin path c.1) c.2 ∈ arrivals :=
      harr.mem_iff.2 (spawned_mem lib path dirItems c hc hd)
    rw [foldl_applySize_match arrivals (newItem lib path c) _ (n1.trans hd) hnd2 hm
      (by rw [n3]; rfl)]
    simp [hd, calcDirSize]
  · have hfile : (newItem lib path c).isDir = false := by
      rw [n1]; simpa using hd
    rw [foldl_applySize_file arrivals _ hfile]
    simp [hd]

/-- C1 (counterexample): a subdirectory holding two files of `2^62` bytes each
is listed with `sizeBytes = -2^63`, while the sum of its file sizes is `2^63`. -/
theorem size_sum_wraps_at_int64 :
    listDirContents goPaths "/tmp/a" (.dir 96 hugeEntries) (spawned goPaths "/tmp/a" hugeEntries)
        = .ok [⟨true, "big", "/tmp/a/big", "/tmp/a", -9223372036854775808, 0⟩]
    ∧ fileTotalList hugeEntries = 9223372036854775808 := by
  constructor <;> rfl

/-- C1 (amended): in the list returned for a directory whose entries have
pairwise distinct paths, every item is the item of an entry `c` (same name, path
and kind); a subdirectory whose walk meets no error has as `sizeBytes` the sum
of the sizes of all non-directory files below it reduced to `int64`, which is
the sum itself when it fits; a file keeps the size of its own metadata; and the
list is the same for every order in which the messages arrive. -/
theorem listDirContents_sizes (lib : PathLib) (path : String) (size : Int)
    (dirItems : List (String × FsNode)) (arrivals : List FsItemSize) (items : List FsItem)
    (hnd : (dirItems.map (fun c => lib.filepathJoin path c.1)).Nodup)
    (harr : arrivals.Perm (spawned lib path dirItems))
    (h : listDirContents lib path (.dir size dirItems) arrivals = .ok items) :
    (∀ e ∈ items, ∃ c ∈ dirItems,
        e.name = c.1 ∧ e.fullPath = lib.filepathJoin path c.1 ∧ e.isDir = c.2.isDirEntry
        ∧ (e.isDir = true → readable c.2 = true →
            e.sizeBytes = wrap64 (fileTotal c.2)
            ∧ (-9223372036854775808 ≤ fileTotal c.2 → fileTotal c.2 ≤ 9223372036854775807 →
                e.sizeBytes = fileTotal c.2))
        ∧ (∀ sz, c.2 = .file sz → e.sizeBytes = sz))
    ∧ items.length = dirItems.length
    ∧ listDirContents lib path (.dir size dirItems) (spawned lib path dirItems) = .ok items := by
  obtain ⟨size1, dirItems1, hnode, hne, rfl⟩ := listDirContents_ok lib path _ arrivals items h
  cases hnode
  refine ⟨?_, ?_, ?_⟩
  · intro e he
    obtain ⟨c, hc, rfl⟩ := (mem_listing lib path dirItems arrivals e).1 he
    rw [merged_entry lib path dirItems arrivals hnd harr c hc]
    obtain ⟨n1, n2, n3, n4, n5⟩ := newItem_fields lib path c
    refine ⟨c, hc, n2, n3, n1, ?_, ?_⟩
    · intro hd hr
      have hd2 : c.2.isDirEntry = true := n1.symm.trans hd
      have hw := walk_visits c.2 0 (by rfl)
      have hsum := sum_visits_readable c.2 hr
      have hsz : (walk walkFn c.2 0).1 = wrap64 (fileTotal c.2) := by
        rw [hw, hsum]; simp
      refine ⟨by simp [hd2, hsz], ?_⟩
      intro h1 h2
      simp [hd2, hsz, wrap64_of_fits _ h1 h2]
    · intro sz hsz
      simp [newItem, hsz, FsNode.isDirEntry, FsNode.info]
  · rw [(perm_sortSlice _ _).length_eq, mergeSizes_eq_map]
    simp
  · have hcanon : mergeSizes (dirItems.map (newItem lib path)) (spawned lib path dirItems)
        = mergeSizes (dirItems.map (newItem lib path)) arrivals := by
      rw [mergeSizes_eq_map, mergeSizes_eq_map, List.map_map, List.map_map]
      apply List.map_congr_left
      intro c hc
      simp only [Function.comp]
      rw [merged_entry lib path dirItems arrivals hnd harr c hc,
        merged_entry lib path dirItems _ hnd (List.Perm.refl _) c hc]
    cases dirItems with
    | nil => exact absurd rfl hne
    | cons c cs =>
      have hcap : ¬ ((((c :: cs).length : Nat) : Int) - 1 < 0) := by
        simp only [List.length_cons]; omega
      simp only [listDirContents, readDir, makeSlice, hcap, if_false, List.nil_append, hcanon]

/-- The amended C1 on the specification's example, with the messages arriving
in the order the goroutines are started: `b` is listed with 50 bytes, `f` with
100 bytes. -/
theorem listDirContents_sizes_witness :
    (∀ e ∈ exampleListing, ∃ c ∈ exampleEntries,
        e.name = c.1 ∧ e.fullPath = goPaths.filepathJoin "/tmp/a" c.1 ∧ e.isDir = c.2.isDirEntry
        ∧ (e.isDir = true → readable c.2 = true →
            e.sizeBytes = wrap64 (fileTotal c.2)
            ∧ (-9223372036854775808 ≤ fileTotal c.2 → fileTotal c.2 ≤ 9223372036854775807 →
                e.sizeBytes = fileTotal c.2))
        ∧ (∀ sz, c.2 = .file sz → e.sizeBytes = sz))
    ∧ exampleListing.length = exampleEntries.length
    ∧ listDirContents goPaths "/tmp/a" (.dir 128 exampleEntries)
        (spawned goPaths "/tmp/a" exampleEntries) = .ok exampleListing :=
  listDirContents_sizes goPaths "/tmp/a" 128 exampleEntries
    (spawned goPaths "/tmp/a" exampleEntries) exampleListing
    (by decide) (List.Perm.refl _) (by rfl)

/-! ## Further examples -/

/-- From `/tmp/a` the command `..` leads to `/tmp`, from `/` it leads nowhere. -/
theorem dotdot_examples :
    selectEvent goPaths "/tmp/a" exampleListing (.input "..") = .browse "/tmp"
    ∧ selectEvent goPaths "/" exampleListing (.input "..") = .browse "/" := by
  constructor <;> rfl

/-- The integer branch of `formatBytes10`: below 1024 the size is printed as a
decimal integer, right-aligned in 10 columns, followed by the unit `B`. -/
theorem formatBytes10_below_1024 (scaled : Int → Option String) (bytes : Int)
    (h : bytes < 1024) :
    formatBytes10 scaled bytes = some (padLeft 10 (toString bytes) ++ " B") := by
  unfold formatBytes10
  rw [if_pos h]

/-- The sizes 0 and 1023 as `formatBytes10` prints them. -/
theorem formatBytes10_examples :
    formatBytes10 noScaled 0 = some "         0 B"
    ∧ formatBytes10 noScaled 1023 = some "      1023 B" := by
  constructor <;> rfl

/-! ## The scaled branch of `formatBytes10` -/

/-- With an exponent from 1 to 5 the scaled branch prints the rounded quotient,
a space and the unit `units[exp-1]`. -/
theorem formatBytes10_scaled_unit (fl : FloatLib) (bytes : Int) (h1 : 1024 ≤ bytes)
    (hlo : 1 ≤ fl.logQuotient bytes) (hhi : fl.logQuotient bytes ≤ 5) :
    ∃ unit, units[(fl.logQuotient bytes - 1).toNat]? = some unit
      ∧ formatBytes10 (scaledBranch fl) bytes
          = some (fl.fixed2 bytes (fl.logQuotient bytes) ++ " " ++ unit) := by
  have hb : ¬ bytes < 1024 := by omega
  have hneg : ¬ (fl.logQuotient bytes - 1 < 0) := by omega
  have hlt : (fl.logQuotient bytes - 1).toNat < units.length := by
    simp only [units, List.length_cons, List.length_nil]
    omega
  refine ⟨units[(fl.logQuotient bytes - 1).toNat], List.getElem?_eq_getElem hlt, ?_⟩
  unfold formatBytes10 scaledBranch
  simp only [hb, if_false, hneg, List.getElem?_eq_getElem hlt]

/-- C10 (failing input): for a size of 1024 bytes or more whose exponent
`int64(math.Log(float64(bytes)) / math.Log(1024))` is 6 or more (every size
from `2^60` bytes on in exact arithmetic), `formatBytes10` does not return a
string: `units[exp-1]` indexes a slice of 5 elements at 5 or beyond and
panics. -/
theorem formatBytes10_panics_beyond_units (fl : FloatLib) (bytes : Int) (h1 : 1024 ≤ bytes)
    (h6 : 6 ≤ fl.logQuotient bytes) :
    formatBytes10 (scaledBranch fl) bytes = none := by
  have hb : ¬ bytes < 1024 := by omega
  have hneg : ¬ (fl.logQuotient bytes - 1 < 0) := by omega
  have hge : units.length ≤ (fl.logQuotient bytes - 1).toNat := by
    simp only [units, List.length_cons, List.length_nil]
    omega
  unfold formatBytes10 scaledBranch
  simp only [hb, if_false, hneg, List.getElem?_eq_none hge]

/-- The largest size of type `int64`, `2^63 - 1`: the exponent is 6 (the
quotient of logarithms is 6.3) and `formatBytes10` panics. -/
theorem formatBytes10_panics_beyond_units_witness :
    exactFloats.logQuotient 9223372036854775807 = 6
    ∧ formatBytes10 (scaledBranch exactFloats) 9223372036854775807 = none :=
  ⟨by rfl, formatBytes10_panics_beyond_units exactFloats 9223372036854775807 (by decide)
    (by decide)⟩

/-- The sizes 1024 and 1,048,576 as `formatBytes10` prints them in exact
arithmetic, and the first size without a unit. -/
theorem formatBytes10_scaled_examples :
    formatBytes10 (scaledBranch exactFloats) 1024 = some "      1.00 KB"
    ∧ formatBytes10 (scaledBranch exactFloats) 1048576 = some "      1.00 MB"
    ∧ formatBytes10 (scaledBranch exactFloats) 1152921504606846975 = some "   1024.00 PB"
    ∧ formatBytes10 (scaledBranch exactFloats) 1152921504606846976 = none := by
  refine ⟨by rfl, by rfl, by rfl, by rfl⟩

/-! ## The parent of a clean absolute path -/

theorem splitSlash_ne_nil (l : List Char) : splitSlash l ≠ [] := by
  cases l with
  | nil => simp [splitSlash]
  | cons c cs =>
    rw [splitSlash]
    split
    · simp
    · split <;> simp

theorem splitSlash_append (w rest : List Char) (hw : '/' ∉ w) :
    splitSlash (w ++ '/' :: rest) = w :: splitSlash rest := by
  induction w with
  | nil =>
    rw [List.nil_append, splitSlash]
    cases h : splitSlash rest with
    | nil => exact absurd h (splitSlash_ne_nil rest)
    | cons a as => simp
  | cons c cs ih =>
    have hc : c ≠ '/' := fun hc => hw (hc ▸ List.mem_cons_self _ _)
    have hcs : '/' ∉ cs := fun hm => hw (List.mem_cons_of_mem _ hm)
    rw [List.cons_append, splitSlash, ih hcs]
    simp [hc]

theorem splitSlash_word (w : List Char) (hw : '/' ∉ w) : splitSlash w = [w] := by
  induction w with
  | nil => rfl
  | cons c cs ih =>
    have hc : c ≠ '/' := fun hc => hw (hc ▸ List.mem_cons_self _ _)
    have hcs : '/' ∉ cs := fun hm => hw (List.mem_cons_of_mem _ hm)
    rw [splitSlash, ih hcs]
    simp [hc]

theorem joinSlash_cons (w : List Char) (ws : List (List Char)) (h : ws ≠ []) :
    joinSlash (w :: ws) = w ++ '/' :: joinSlash ws := by
  cases ws with
  | nil => exact absurd rfl h
  | cons v vs => rfl

theorem splitSlash_joinSlash (ws : List (List Char)) (hne : ws ≠ [])
    (h : ∀ w ∈ ws, '/' ∉ w) : splitSlash (joinSlash ws) = ws := by
  induction ws with
  | nil => exact absurd rfl hne
  | cons w rest ih =>
    cases rest with
    | nil =>
      rw [joinSlash]
      exact splitSlash_word w (h w (List.mem_cons_self _ _))
    | cons v vs =>
      rw [joinSlash_cons w (v :: vs) (by simp),
        splitSlash_append w _ (h w (List.mem_cons_self _ _)),
        ih (by simp) (fun x hx => h x (List.mem_cons_of_mem _ hx))]

theorem joinSlash_snoc (init : List (List Char)) (last : List Char) (hne : init ≠ []) :
    joinSlash (init ++ [last]) = joinSlash init ++ '/' :: last := by
  induction init with
  | nil => exact absurd rfl hne
  | cons a rest ih =>
    cases rest with
    | nil => simp [joinSlash]
    | cons b r =>
      rw [List.cons_append, joinSlash_cons a _ (by simp), ih (by simp),
        joinSlash_cons a (b :: r) (by simp)]
      simp

theorem dropWhile_append_of_all (p : Char → Bool) (l1 l2 : List Char)
    (h : ∀ c ∈ l1, p c = true) : (l1 ++ l2).dropWhile p = l2.dropWhile p := by
  induction l1 with
  | nil => rfl
  | cons c cs ih =>
    rw [List.cons_append, List.dropWhile_cons, if_pos (h c (List.mem_cons_self _ _))]
    exact ih (fun x hx => h x (List.mem_cons_of_mem _ hx))

theorem uptoLastSlash_append (pre last : List Char) (h : '/' ∉ last) :
    uptoLastSlash (pre ++ '/' :: last) = pre ++ ['/'] := by
  unfold uptoLastSlash
  have hrev : (pre ++ '/' :: last).reverse = last.reverse ++ '/' :: pre.reverse := by simp
  rw [hrev, dropWhile_append_of_all]
  · rw [List.dropWhile_cons]
    simp
  · intro c hc
    have hcl : c ∈ last := List.mem_reverse.1 hc
    have : c ≠ '/' := fun hcs => h (hcs ▸ hcl)
    simpa using this

theorem cleanStack_skip (rooted : Bool) (ws st : List (List Char)) :
    cleanStack rooted ([] :: ws) st = cleanStack rooted ws st := by
  cases st <;> simp [cleanStack]

theorem cleanStack_push (rooted : Bool) (w : List Char) (ws st : List (List Char))
    (h1 : w ≠ []) (h3 : w ≠ ['.']) (h4 : w ≠ ['.', '.']) :
    cleanStack rooted (w :: ws) st = cleanStack rooted ws (w :: st) := by
  cases st <;> simp [cleanStack, h1, h3, h4]

theorem cleanStack_plain (rooted : Bool) (ws : List (List Char)) :
    ∀ (rest st : List (List Char)), (∀ w ∈ ws, plainName w = true) →
      cleanStack rooted (ws ++ rest) st = cleanStack rooted rest (ws.reverse ++ st) := by
  induction ws with
  | nil => intro rest st _; rfl
  | cons w ws ih =>
    intro rest st h
    have hw := h w (List.mem_cons_self _ _)
    simp only [plainName, decide_eq_true_eq] at hw
    obtain ⟨h1, -, h3, h4⟩ := hw
    rw [List.cons_append, cleanStack_push rooted w _ st h1 h3 h4,
      ih rest (w :: st) (fun x hx => h x (List.mem_cons_of_mem _ hx))]
    simp

/-- The library function `filepath.Dir` on a clean absolute path: the clean
absolute path without its last element. -/
theorem dirPath_absPath (elements : List (List Char)) (hne : elements ≠ [])
    (hplain : ∀ w ∈ elements, plainName w = true) :
    dirPath (absPath elements) = absPath elements.dropLast
    ∧ absPath elements ≠ "/" := by
  have hsplit := List.dropLast_append_getLast hne
  have hlast : plainName (elements.getLast hne) = true :=
    hplain _ (List.getLast_mem hne)
  simp only [plainName, decide_eq_true_eq] at hlast
  obtain ⟨l1, l2, -, -⟩ := hlast
  have hinit : ∀ w ∈ elements.dropLast, plainName w = true :=
    fun w hw => hplain w (List.mem_of_mem_dropLast hw)
  generalize elements.dropLast = init at hsplit hinit ⊢
  generalize elements.getLast hne = last at hsplit l1 l2
  subst hsplit
  cases init with
  | nil =>
    constructor
    · show String.mk (cleanPath (uptoLastSlash ([] ++ '/' :: last))) = _
      rw [uptoLastSlash_append [] last l2]
      rfl
    · intro hc
      have hd : ('/' :: joinSlash ([] ++ [last])) = ['/'] := congrArg String.data hc
      simp only [List.nil_append, joinSlash, List.cons.injEq, true_and] at hd
      exact l1 hd
  | cons a rest =>
    have hjoin := joinSlash_snoc (a :: rest) last (by simp)
    constructor
    · show String.mk (cleanPath (uptoLastSlash ('/' :: joinSlash ((a :: rest) ++ [last])))) = _
      have hpath : '/' :: joinSlash ((a :: rest) ++ [last])
          = ('/' :: joinSlash (a :: rest)) ++ '/' :: last := by
        rw [hjoin]; rfl
      rw [hpath, uptoLastSlash_append _ last l2]
      have hsl : ∀ w ∈ (a :: rest) ++ [[]], '/' ∉ w := by
        intro w hw
        rcases List.mem_append.1 hw with hw | hw
        · have := hinit w hw
          simp only [plainName, decide_eq_true_eq] at this
          exact this.2.1
        · simp only [List.mem_singleton] at hw
          subst hw
          simp
      have hsp : splitSlash (('/' :: joinSlash (a :: rest)) ++ ['/'])
          = [] :: ((a :: rest) ++ [[]]) := by
        have h1 : ('/' :: joinSlash (a :: rest)) ++ ['/']
            = [] ++ '/' :: joinSlash ((a :: rest) ++ [[]]) := by
          rw [joinSlash_snoc (a :: rest) [] (by simp)]; rfl
        rw [h1, splitSlash_append [] _ (by simp), splitSlash_joinSlash _ (by simp) hsl]
      have hcs : cleanStack true ([] :: ((a :: rest) ++ [[]])) [] = a :: rest := by
        rw [cleanStack_skip, cleanStack_plain true (a :: rest) [[]] [] hinit, cleanStack_skip]
        simp [cleanStack]
      show String.mk (cleanPath (('/' :: joinSlash (a :: rest)) ++ ['/'])) = _
      have hcp : cleanPath (('/' :: joinSlash (a :: rest)) ++ ['/'])
          = '/' :: joinSlash (a :: rest) := by
        rw [List.cons_append, cleanPath]
        simp only [decide_True, if_true]
        rw [← List.cons_append, hsp, hcs]
      rw [hcp]
      rfl
    · intro hc
      have hd : ('/' :: joinSlash ((a :: rest) ++ [last])) = ['/'] := congrArg String.data hc
      rw [hjoin] at hd
      simp at hd

/-- C5 (counterexample): from the start path `/tmp/a/` the command `..` leads
to `/tmp/a`, the same directory and not its parent `/tmp`; from the start path
`.` it leads to `.`; from `/tmp/a/..`, which is `/tmp`, it leads down to
`/tmp/a`. -/
theorem dotdot_not_parent_of_unclean_path :
    selectEvent goPaths "/tmp/a/" [] (.input "..") = .browse "/tmp/a"
    ∧ String.mk (cleanPath "/tmp/a/".data) = "/tmp/a"
    ∧ selectEvent goPaths "." [] (.input "..") = .browse "."
    ∧ selectEvent goPaths "/tmp/a/.." [] (.input "..") = .browse "/tmp/a"
    ∧ String.mk (cleanPath "/tmp/a/..".data) = "/tmp" := by
  refine ⟨by rfl, by rfl, by rfl, by rfl, by rfl⟩

/-- C5 (amended): the command `..` leaves the current path as it is when it is
the root path `/` and sets it to `filepath.Dir` of the current path otherwise,
and the loop goes on in both cases; for a clean absolute current path (plain
names separated by single slashes, as every path reached from `/` by
selections is) `filepath.Dir` is the path without its last element, the parent
directory. -/
theorem dotdot_goes_to_dir (elements : List (List Char)) (dirItems : List FsItem)
    (hne : elements ≠ []) (hplain : ∀ w ∈ elements, plainName w = true) :
    selectEvent goPaths (absPath elements) dirItems (.input "..")
        = .browse (absPath elements.dropLast)
    ∧ selectEvent goPaths "/" dirItems (.input "..") = .browse "/"
    ∧ ∀ (lib : PathLib) (p : String),
        selectEvent lib p dirItems (.input "..")
          = .browse (if p = "/" then p else lib.filepathDir p) := by
  obtain ⟨hdir, hroot⟩ := dirPath_absPath elements hne hplain
  refine ⟨?_, by rfl, fun lib p => dotdot_branch lib p dirItems⟩
  rw [dotdot_branch goPaths (absPath elements) dirItems, if_neg hroot]
  exact congrArg Next.browse hdir

/-- From `/tmp/a` the command `..` leads to `/tmp`. -/
theorem dotdot_goes_to_dir_witness :
    selectEvent goPaths "/tmp/a" exampleListing (.input "..") = .browse "/tmp" :=
  (dotdot_goes_to_dir [['t', 'm', 'p'], ['a']] exampleListing (by decide) (by decide)).1

end DiskUsage
